import Mathlib

/-!
Verification of the MDB (LMDB-backed) storage layer: the typed KV facade
(mdb.h), the index access method (btree_based_access_method.cpp) and the
record store (record_store_mdb.cpp), modelled as pure functions over
association lists that mirror the B+tree contents.
-/

/-- Index keys are modelled by naturals (their comparator order). -/
abbrev Key := Nat

/-- Record locators are modelled by naturals (DiskLoc values compare numerically). -/
abbrev Loc := Nat

/-! ### Codec layer (Adapter specializations in mdb.h)

A `Data` view is a byte list; each byte is a `Nat` below 256 for values produced
by the encoders. -/

/-- Raw little-endian memory of a `uint32_t` (`Adapter<uint32_t>::toMDB`). -/
def u32ToMDB (v : Nat) : List Nat :=
  [v % 256, v / 256 % 256, v / 65536 % 256, v / 16777216 % 256]

/-- `Adapter<uint32_t>::fromMDB`: asserts the view length equals `sizeof(uint32_t)`
(modelled by `none` on a length mismatch), then memcpy of the 4 bytes. -/
def u32FromMDB (d : List Nat) : Option Nat :=
  match d with
  | [b0, b1, b2, b3] => some (b0 + 256 * b1 + 65536 * b2 + 16777216 * b3)
  | _ => none

/-- Raw little-endian memory of a `uint64_t` (`Adapter<uint64_t>::toMDB`). -/
def u64ToMDB (v : Nat) : List Nat :=
  [v % 256, v / 256 % 256, v / 65536 % 256, v / 16777216 % 256,
   v / 4294967296 % 256, v / 1099511627776 % 256,
   v / 281474976710656 % 256, v / 72057594037927936 % 256]

/-- `Adapter<uint64_t>::fromMDB`: length assertion then memcpy of the 8 bytes. -/
def u64FromMDB (d : List Nat) : Option Nat :=
  match d with
  | [b0, b1, b2, b3, b4, b5, b6, b7] =>
    some (b0 + 256 * b1 + 65536 * b2 + 16777216 * b3 + 4294967296 * b4 +
          1099511627776 * b5 + 281474976710656 * b6 + 72057594037927936 * b7)
  | _ => none

/-- `DiskLoc`: a 32-bit file number and a 32-bit offset, laid out in that order. -/
structure DiskLoc where
  a : Nat
  ofs : Nat
deriving DecidableEq, Repr

/-- `Adapter<DiskLoc>::toMDB`: the raw 8 bytes of the struct (a then ofs, little-endian). -/
def diskLocToMDB (l : DiskLoc) : List Nat := u32ToMDB l.a ++ u32ToMDB l.ofs

/-- `Adapter<DiskLoc>::fromMDB`: asserts the view length equals `sizeof(DiskLoc)`,
then memcpy back into the two 32-bit fields. -/
def diskLocFromMDB (d : List Nat) : Option DiskLoc :=
  match d with
  | [b0, b1, b2, b3, b4, b5, b6, b7] =>
    some ⟨b0 + 256 * b1 + 65536 * b2 + 16777216 * b3,
          b4 + 256 * b5 + 65536 * b6 + 16777216 * b7⟩
  | _ => none

/-- `Adapter<std::string>::toMDB`: the string bytes, unchanged. -/
def stringToMDB (s : List Nat) : List Nat := s

/-- `Adapter<std::string>::fromMDB`: copies the viewed bytes back into a string. -/
def stringFromMDB (d : List Nat) : List Nat := d

/-- `Adapter<StringData>::toMDB`: the viewed bytes, unchanged. -/
def stringDataToMDB (s : List Nat) : List Nat := s

/-- `Adapter<StringData>::fromMDB`: a view over the same bytes. -/
def stringDataFromMDB (d : List Nat) : List Nat := d

/-- A serialized BSON object: its raw bytes.  The first four bytes hold the
little-endian total size (what `objsize()` reads). -/
structure BSONObj where
  bytes : List Nat
deriving DecidableEq, Repr

/-- `BSONObj::objsize()`: the little-endian 32-bit value in the first four bytes. -/
def bsonObjsize (bs : List Nat) : Nat :=
  match bs with
  | b0 :: b1 :: b2 :: b3 :: _ => b0 + 256 * b1 + 65536 * b2 + 16777216 * b3
  | _ => 0

/-- Well-formedness of a serialized BSON object: its recorded size is its length. -/
def bsonWF (o : BSONObj) : Prop := bsonObjsize o.bytes = o.bytes.length

/-- `Adapter<BSONObj>::toMDB`: `Data(obj.objsize(), obj.objdata())`. -/
def bsonToMDB (o : BSONObj) : List Nat := o.bytes

/-- `Adapter<BSONObj>::fromMDB`: rebuilds the object over the viewed bytes and
asserts `obj.objsize() == data.mv_size` (modelled by `none` on mismatch). -/
def bsonFromMDB (d : List Nat) : Option BSONObj :=
  if bsonObjsize d = d.length then some ⟨d⟩ else none

/-! ### KV facade (mdb.h): databases without duplicates

A no-DUPSORT database is a key-sorted association list with distinct keys. -/

/-- The LMDB `MDB_NOTFOUND` return code. -/
def mdbNotFound : Int := -30798

/-- The LMDB `MDB_KEYEXIST` return code. -/
def mdbKeyExist : Int := -30797

/-- A unique-index (no-DUPSORT) database: key-sorted pair list. -/
abbrev UDB := List (Key × Loc)

/-- The keys currently stored. -/
def udbKeys (db : UDB) : List Key := db.map Prod.fst

/-- Key order on stored pairs used by the B+tree. -/
def udbLt (p q : Key × Loc) : Prop := p.1 < q.1

instance : DecidableRel udbLt := fun p q => inferInstanceAs (Decidable (p.1 < q.1))

instance : IsAntisymm (Key × Loc) udbLt :=
  ⟨fun _ _ h h' => absurd (Nat.lt_trans h h') (Nat.lt_irrefl _)⟩

/-- The tree invariant: pairs strictly sorted by key. -/
def udbSorted (db : UDB) : Prop := db.Pairwise udbLt

instance (db : UDB) : Decidable (udbSorted db) :=
  inferInstanceAs (Decidable (db.Pairwise udbLt))

/-- Lookup by key (`mdb_get` / `MDB_SET_KEY` on a no-DUPSORT database). -/
def udbLookup : UDB → Key → Option Loc
  | [], _ => none
  | p :: rest, k => if p.1 = k then some p.2 else udbLookup rest k

/-- Insertion at the key-sorted position (what `mdb_put` does to the tree). -/
def udbInsert : UDB → Key × Loc → UDB
  | [], p => [p]
  | q :: rest, p => if p.1 < q.1 then p :: q :: rest else q :: udbInsert rest p

/-- Overwrite of the value stored under an existing key. -/
def udbReplace (db : UDB) (k : Key) (l : Loc) : UDB :=
  db.map fun p => if p.1 = k then (k, l) else p

/-- `put` on a no-DUPSORT database with flags `MDB_NODUPDATA | (noOverwrite ? MDB_NOOVERWRITE : 0)`:
with `MDB_NOOVERWRITE` a present key yields `MDB_KEYEXIST`; without it the value is replaced. -/
def udbPut (db : UDB) (k : Key) (l : Loc) (noOverwrite : Bool) : Except Int UDB :=
  if k ∈ udbKeys db then
    if noOverwrite then .error mdbKeyExist else .ok (udbReplace db k l)
  else .ok (udbInsert db (k, l))

/-- `DB::get`: `check(mdb_get(...))` — a missing key raises `Error(MDB_NOTFOUND)`
instead of returning an absent optional. -/
def dbGet (db : UDB) (k : Key) : Except Int Loc :=
  match udbLookup db k with
  | some v => .ok v
  | none => .error mdbNotFound

/-- `DB::hasKey`: `MDB_NOTFOUND` is mapped to `false`; only other codes are checked. -/
def dbHasKey (db : UDB) (k : Key) : Except Int Bool :=
  match udbLookup db k with
  | some _ => .ok true
  | none => .ok false

/-- `DB::openIfCan`: `MDB_NOTFOUND` from `mdb_dbi_open` is mapped to `false`. -/
def dbOpenIfCan (env : List Nat) (name : Nat) : Except Int Bool :=
  if name ∈ env then .ok true else .ok false

/-- `Cursor::simple` for `MDB_SET_KEY`: `MDB_NOTFOUND` becomes `boost::none`,
never an error. -/
def cursorSeekKeyMaybe (db : UDB) (k : Key) : Except Int (Option (Key × Loc)) :=
  match udbLookup db k with
  | some v => .ok (some (k, v))
  | none => .ok none

/-! ### Index access method: insert (btree_based_access_method.cpp) -/

/-- Deletion of one exact stored pair (`deleteCurrent` after a successful
`MDB_GET_BOTH` seek). -/
def erasePair : UDB → Key × Loc → UDB
  | [], _ => []
  | q :: t, p => if q = p then t else q :: erasePair t p

/-- The duplicate-key cleanup loop of `BtreeBasedAccessMethod::insert`: for each key
of the document in iteration order, `seekKey(key, loc)` (`MDB_GET_BOTH`); if the
exact pair is found it is deleted, otherwise the loop checks
`invariant(keyToDel.binaryEqual(key))` against the colliding key (`none` models an
invariant failure) and stops. -/
def insertUnwind (loc : Loc) (collidingKey : Key) : List Key → UDB → Option UDB
  | [], db => some db
  | k :: rest, db =>
    if (k, loc) ∈ db then insertUnwind loc collidingKey rest (erasePair db (k, loc))
    else if k = collidingKey then some db
    else none

/-- Outcome of `BtreeBasedAccessMethod::insert` over the MDB database. -/
inductive InsertResult where
  | ok (db : UDB) (numInserted : Nat)
  | duplicateKey (db : UDB) (numInserted : Nat)
  | invariantFailure
deriving DecidableEq, Repr

/-- The key loop of `BtreeBasedAccessMethod::insert`: put each key with
`MDB_NODUPDATA | (dupsAllowed ? 0 : MDB_NOOVERWRITE)`.  On `MDB_KEYEXIST`: if the
index is not ready (background build) the key is skipped; otherwise the keys
already inserted for this document are unwound, `numInserted` is reset to 0 and
`DuplicateKey` is returned. -/
def insertLoop (allKeys : List Key) (loc : Loc) (ready dupsAllowed : Bool) :
    List Key → UDB → Nat → InsertResult
  | [], db, n => .ok db n
  | k :: rest, db, n =>
    match udbPut db k loc (!dupsAllowed) with
    | .ok db' => insertLoop allKeys loc ready dupsAllowed rest db' (n + 1)
    | .error _ =>
      if !ready then insertLoop allKeys loc ready dupsAllowed rest db n
      else
        match insertUnwind loc k allKeys db with
        | some db' => .duplicateKey db' 0
        | none => .invariantFailure

/-- `BtreeBasedAccessMethod::insert(obj, loc, options)` over the MDB database,
with `keys` the key set extracted from the document in iteration order. -/
def indexInsert (keys : List Key) (loc : Loc) (ready dupsAllowed : Bool) (db : UDB) :
    InsertResult :=
  insertLoop keys loc ready dupsAllowed keys db 0

/-- `BtreeBasedAccessMethod::findSingle`: cursor `seekKey` exact; the stored
locator, or absent (the null `DiskLoc`) when the key is missing. -/
def findSingle (db : UDB) (k : Key) : Option Loc := udbLookup db k

/-- Helper describing the database state after the successful prefix of puts:
each key of `pre` inserted with value `loc`. -/
def foldIns (db : UDB) (pre : List Key) (loc : Loc) : UDB :=
  pre.foldl (fun d k => udbInsert d (k, loc)) db

/-! ### Bulk build commit (`BtreeBulkMDB::commit`) -/

/-- Outcome of `BtreeBulkMDB::commit` for a unique index. -/
inductive BulkResult where
  | ok (db : UDB) (dupsToDrop : List Loc)
  | keyExistError (db : UDB) (dupsToDrop : List Loc)
  | duplicateKeyError
  | tooManyDups
deriving DecidableEq, Repr

/-- The streaming loop of `BtreeBulkMDB::commit` for a unique index
(`dupsAllowed = false`, so flags are `MDB_NODUPDATA | MDB_NOOVERWRITE`).
`first` and `lastKey` are initialized before the loop and — exactly as in the
source — never updated inside it.  A `matchesLast` hit with `dropDups` records
the locator (`uassert` above 1,000,000 entries) and skips the pair; without
`dropDups` it raises `DuplicateKey`; otherwise the pair is put, and an
uncaught `MDB_KEYEXIST` from the put aborts the commit. -/
def bulkLoop (dropDups : Bool) :
    List (Key × Loc) → UDB → List Loc → Bool → Option Key → BulkResult
  | [], db, dups, _, _ => .ok db dups
  | (k, l) :: rest, db, dups, first, lastKey =>
    let matchesLast := !first && (some k == lastKey)
    if matchesLast then
      if dropDups then
        let dups' := dups ++ [l]
        if dups'.length < 1000000 then bulkLoop dropDups rest db dups' first lastKey
        else .tooManyDups
      else .duplicateKeyError
    else
      match udbPut db k l true with
      | .ok db' => bulkLoop dropDups rest db' dups first lastKey
      | .error _ => .keyExistError db dups

/-- `BtreeBulkMDB::commit(dupsToDrop, op, mayInterrupt)` on a unique index:
stream the externally sorted pairs into the empty database. -/
def commitBulkMDB (stream : List (Key × Loc)) (dropDups : Bool) (db : UDB) : BulkResult :=
  bulkLoop dropDups stream db [] true none

/-! ### Record store (record_store_mdb.cpp)

Record values are modelled by their byte length (`mv_size`), the only part the
record-store bookkeeping reads. -/

/-- The catalog stats and cap settings read through `_details`. -/
structure CappedDetails where
  isCapped : Bool
  maxSize : Nat
  maxDocs : Nat
  dataSize : Int
  numRecords : Int
deriving DecidableEq, Repr

/-- The `size_t(...)` conversion applied to the signed `dataSize()` in
`cappedPostInsert`. -/
def asSizeT (i : Int) : Int := if i < 0 then i + 2 ^ 64 else i

/-- The eviction loop of `RecordStoreMDB::cappedPostInsert`: while over either cap,
`cursor.next()` (the first remaining record, oldest id first), decrement the stats
by its size and one, `deleteCurrent`.  `none` models the `invariant(kv)` failure
when the cursor runs out of records. -/
def cappedEvict (maxSize maxDocs : Nat) :
    List (Nat × Nat) → Int → Int → Option (List (Nat × Nat) × Int × Int)
  | [], ds, nr =>
    if asSizeT ds > (maxSize : Int) ∨ nr > (maxDocs : Int) then none else some ([], ds, nr)
  | (k, sz) :: rest, ds, nr =>
    if asSizeT ds > (maxSize : Int) ∨ nr > (maxDocs : Int) then
      cappedEvict maxSize maxDocs rest (ds - sz) (nr - 1)
    else some ((k, sz) :: rest, ds, nr)

/-- `RecordStoreMDB::cappedPostInsert`: no-op on uncapped collections or when both
caps already hold (the cursor is not even opened); otherwise run the eviction loop. -/
def cappedPostInsert (d : CappedDetails) (db : List (Nat × Nat)) :
    Option (List (Nat × Nat) × CappedDetails) :=
  if !d.isCapped then some (db, d)
  else if asSizeT d.dataSize ≤ (d.maxSize : Int) ∧ d.numRecords ≤ (d.maxDocs : Int) then
    some (db, d)
  else
    match cappedEvict d.maxSize d.maxDocs db d.dataSize d.numRecords with
    | some (db', ds', nr') => some (db', { d with dataSize := ds', numRecords := nr' })
    | none => none

/-- A record store over one MDB database: record id ↦ record size, plus the
`_nextId` counter (a `uint32_t`) and the catalog details. -/
structure RecordStoreState where
  db : List (Nat × Nat)
  nextId : Nat
  details : CappedDetails
deriving DecidableEq, Repr

/-- `maxDiskLoc.getOfs()`. -/
def maxDiskLocOfs : Int := 0x7fffffff

/-- The C++ `int(id)` conversion of a `uint32_t` value (two's complement). -/
def u32AsInt (id : Nat) : Int := if id < 2 ^ 31 then (id : Int) else (id : Int) - 2 ^ 32

/-- `put(txn, id, ..., MDB_APPEND)` (with or without `MDB_RESERVE`): appending
requires the new key to sort after every present key, otherwise the store
rejects the put (modelled by `none`). -/
def dbPutAppend (db : List (Nat × Nat)) (id : Nat) (sz : Nat) :
    Option (List (Nat × Nat)) :=
  match db.getLast? with
  | none => some (db ++ [(id, sz)])
  | some (lastK, _) => if lastK < id then some (db ++ [(id, sz)]) else none

/-- `RecordStoreMDB::insertRecord`: take `id = _nextId++`, check
`invariant(int(id) <= maxDiskLoc.getOfs())`, append-put the record, increment the
stats by its size and one, then `cappedPostInsert`.  Returns the new state and the
assigned id. -/
def insertRecord (s : RecordStoreState) (size : Nat) :
    Option (RecordStoreState × Nat) :=
  let id := s.nextId
  let nextId' := (s.nextId + 1) % 2 ^ 32
  if u32AsInt id ≤ maxDiskLocOfs then
    match dbPutAppend s.db id size with
    | some db' =>
      let d' := { s.details with
                  dataSize := s.details.dataSize + size
                  numRecords := s.details.numRecords + 1 }
      match cappedPostInsert d' db' with
      | some (db'', d'') => some ({ db := db'', nextId := nextId', details := d'' }, id)
      | none => none
    | none => none
  else none

/-- The `RecordStoreMDB` constructor for a normal namespace: `cursor.last()` on the
integer-keyed database; next id is the last key plus one (as `uint32_t`) when the
database is non-empty, otherwise 0. -/
def openNextId (db : List (Nat × Nat)) : Nat :=
  match db.getLast? with
  | some (k, _) => (k + 1) % 2 ^ 32
  | none => 0

/-! ### Index cursor (`MDBIndexCursor`)

The index database of a non-unique index allows duplicates: it is modelled as a
list of (key, locator) pairs sorted lexicographically; a cursor position is an
index into that list. -/

/-- `MDB_GET_BOTH_RANGE`: position at the given key, on its first duplicate whose
value is at least the given one; not-found when the key is absent or all its
values are smaller. -/
def seekBothRange (db : List (Key × Loc)) (k : Key) (l : Loc) : Option Nat :=
  db.findIdx? fun p => p.1 == k && l ≤ p.2

/-- `MDB_SET_RANGE`: position at the first pair whose key is at least the query. -/
def seekRangeIdx (db : List (Key × Loc)) (k : Key) : Option Nat :=
  db.findIdx? fun p => k ≤ p.1

/-- `MDB_NEXT_NODUP`: from position `i`, the first later pair with a different key. -/
def nextNoDupIdx (db : List (Key × Loc)) (i : Nat) : Option Nat :=
  match db.get? i with
  | none => none
  | some p =>
    match (db.drop (i + 1)).findIdx? (fun q => q.1 ≠ p.1) with
    | some j => some (i + 1 + j)
    | none => none

/-- `MDBIndexCursor::restorePosition` with forward direction, as written in the
source: `seekRange(savedKey, savedLoc)`; on a hit, forward direction remains
there.  Otherwise `seekRange(savedKey)`; the source then tests
`_savedKey.woEqual(_savedKey)` — the saved key against itself — and on that test
advances by `nextNoDup`, else would remain on the landed pair.  Returns the
`_eof` flag and the cursor position. -/
def restorePositionForward (db : List (Key × Loc)) (savedKey : Key) (savedLoc : Loc) :
    Bool × Option Nat :=
  match seekBothRange db savedKey savedLoc with
  | some i => (false, some i)
  | none =>
    match seekRangeIdx db savedKey with
    | some i =>
      if savedKey = savedKey then
        match nextNoDupIdx db i with
        | some j => (false, some j)
        | none => (true, none)
      else (false, some i)
    | none => (true, none)

/-- The observable state of an `MDBIndexCursor`: the `_eof` flag, the pair under
the live cursor (if positioned), the saved key and locator, and whether the
`mdb::Cursor` member still holds a live handle. -/
structure IndexCursorState where
  eof : Bool
  current : Option (Key × Loc)
  savedKey : Key
  savedLoc : Loc
  live : Bool
deriving DecidableEq, Repr

/-- Outcome of `MDBIndexCursor::savePosition`. -/
inductive SaveResult where
  | ok (s : IndexCursorState)
  | illegalOperation (s : IndexCursorState)
  | invariantFailure
deriving DecidableEq, Repr

/-- `MDBIndexCursor::savePosition`: at EOF, return an `IllegalOperation` status and
touch nothing.  Otherwise `invariant(kv)` on the current pair (`none` models its
failure), copy its key and locator into the owned saved slots, and replace the
cursor member with an empty one (dropping the live handle). -/
def savePosition (s : IndexCursorState) : SaveResult :=
  if !s.eof then
    match s.current with
    | some (k, l) => .ok { s with savedKey := k, savedLoc := l, live := false }
    | none => .invariantFailure
  else .illegalOperation s

/-! ### setDifference and update -/

/-- The static `setDifference` helper: a two-pointer scan over the two sets in
their iteration order; the second pointer advances while its element is below the
first (by the default `woCompare`), and the first element is emitted when the
second set is exhausted or the elements differ. -/
def setDifference : List Nat → List Nat → List Nat
  | [], _ => []
  | i :: is, r =>
    let r' := r.dropWhile fun j => j < i
    match r' with
    | [] => i :: setDifference is r'
    | j :: _ => if i ≠ j then i :: setDifference is r' else setDifference is r'

/-- The per-index data of an `UpdateTicket`
(`BtreeBasedPrivateUpdateData`). -/
structure UpdateTicket where
  oldKeys : List Key
  newKeys : List Key
  removed : List Key
  added : List Key
  loc : Loc
  dupsAllowed : Bool
deriving DecidableEq, Repr

/-- The key bookkeeping of `BtreeBasedAccessMethod::validateUpdate`: extract both
key sets and compute `removed = oldKeys \ newKeys` and `added = newKeys \ oldKeys`
with `setDifference`. -/
def validateUpdateKeys (oldKeys newKeys : List Key) (loc : Loc) (dupsAllowed : Bool) :
    UpdateTicket :=
  { oldKeys := oldKeys
    newKeys := newKeys
    removed := setDifference oldKeys newKeys
    added := setDifference newKeys oldKeys
    loc := loc
    dupsAllowed := dupsAllowed }

/-- One KV operation issued by `update`. -/
inductive IndexOp where
  | put (k : Key) (l : Loc)
  | del (k : Key) (l : Loc)
deriving DecidableEq, Repr

/-- The KV operations issued by `BtreeBasedAccessMethod::update` over the MDB
database, in program order: every added key is put, then every removed key is
sought (`seekKey(key, loc)`) and deleted. -/
def updateOps (t : UpdateTicket) : List IndexOp :=
  (t.added.map fun k => .put k t.loc) ++ (t.removed.map fun k => .del k t.loc)

/-- The multikey test of `update`:
`oldKeys.size() + added.size() - removed.size() > 1` (size_t arithmetic). -/
def updateSetsMultikey (t : UpdateTicket) : Bool :=
  t.oldKeys.length + t.added.length - t.removed.length > 1

/-! ## Theorems -/

/-! ### Generic list helpers -/

theorem mem_dropWhile_lt {r : List Nat} {i x : Nat} (hx : x ∈ r) (hge : ¬ x < i) :
    x ∈ r.dropWhile fun j => j < i := by
  induction r with
  | nil => cases hx
  | cons a t ih =>
    by_cases ha : a < i
    · rw [List.dropWhile_cons_of_pos (by simpa using ha)]
      rcases List.mem_cons.mp hx with rfl | hx'
      · exact absurd ha hge
      · exact ih hx'
    · rw [List.dropWhile_cons_of_neg (by simpa using ha)]
      exact hx

theorem mem_of_mem_dropWhile {r : List Nat} {p : Nat → Bool} {x : Nat}
    (hx : x ∈ r.dropWhile p) : x ∈ r :=
  (List.dropWhile_sublist p).mem hx

theorem dropWhile_lt_head_ge {r t : List Nat} {i j : Nat}
    (h : (r.dropWhile fun a => a < i) = j :: t) : ¬ j < i := by
  induction r with
  | nil => simp at h
  | cons a ta ih =>
    by_cases ha : a < i
    · rw [List.dropWhile_cons_of_pos (by simpa using ha)] at h
      exact ih h
    · rw [List.dropWhile_cons_of_neg (by simpa using ha)] at h
      cases h
      exact ha

theorem setDifference_eq_filter :
    ∀ (l r : List Nat), l.Pairwise (· < ·) → r.Pairwise (· < ·) →
      setDifference l r = l.filter fun x => decide (x ∉ r) := by
  intro l
  induction l with
  | nil => intro r _ _; rfl
  | cons i is ih =>
    intro r hl hr
    obtain ⟨hhead, his⟩ := List.pairwise_cons.mp hl
    have hr' : (r.dropWhile fun j => j < i).Pairwise (· < ·) :=
      hr.sublist (List.dropWhile_sublist _)
    have hmem : ∀ x, ¬ x < i → (x ∈ r ↔ x ∈ r.dropWhile fun j => j < i) := by
      intro x hx
      exact ⟨fun h => mem_dropWhile_lt h hx, fun h => mem_of_mem_dropWhile h⟩
    have htail : is.filter (fun x => decide (x ∉ r.dropWhile fun j => j < i)) =
        is.filter fun x => decide (x ∉ r) := by
      apply List.filter_congr
      intro x hx
      have hlt : i < x := hhead x hx
      simp only [decide_eq_decide]
      rw [hmem x (Nat.not_lt.mpr (Nat.le_of_lt hlt))]
    have hrec := ih (r.dropWhile fun j => j < i) his hr'
    show (match r.dropWhile fun j => j < i with
          | [] => i :: setDifference is (r.dropWhile fun j => j < i)
          | j :: _ =>
            if i ≠ j then i :: setDifference is (r.dropWhile fun j => j < i)
            else setDifference is (r.dropWhile fun j => j < i)) = _
    cases hdw : r.dropWhile fun j => j < i with
    | nil =>
      have hnot : i ∉ r := by
        intro hm
        have hmm := (hmem i (Nat.lt_irrefl i)).mp hm
        rw [hdw] at hmm
        cases hmm
      rw [hdw] at hrec htail
      rw [hrec, htail]
      simp [List.filter_cons, hnot]
    | cons j t =>
      have hjge : ¬ j < i := dropWhile_lt_head_ge hdw
      rw [hdw] at hrec htail
      by_cases hij : i = j
      · subst hij
        have hmemi : i ∈ r := mem_of_mem_dropWhile (hdw ▸ List.mem_cons_self i t)
        show (if i ≠ i then i :: setDifference is (i :: t) else setDifference is (i :: t)) = _
        rw [if_neg (by simp), hrec, htail]
        simp [List.filter_cons, hmemi]
      · have hnot : i ∉ r := by
          intro hm
          have hmem' := (hmem i (Nat.lt_irrefl i)).mp hm
          rw [hdw] at hmem'
          rcases List.mem_cons.mp hmem' with rfl | hmt
          · exact hij rfl
          · exact hjge ((List.pairwise_cons.mp (hdw ▸ hr')).1 i hmt)
        show (if i ≠ j then i :: setDifference is (j :: t) else setDifference is (j :: t)) = _
        rw [if_pos hij, hrec, htail]
        simp [List.filter_cons, hnot]

theorem length_filter_add_length_filter_not (l : List Nat) (p : Nat → Bool) :
    (l.filter p).length + (l.filter fun x => !(p x)).length = l.length := by
  induction l with
  | nil => rfl
  | cons a t ih =>
    cases hpa : p a <;> simp [List.filter_cons, hpa] <;> omega

theorem sorted_eq_of_mem_iff :
    ∀ (l₁ l₂ : List Nat), l₁.Pairwise (· < ·) → l₂.Pairwise (· < ·) →
      (∀ x, x ∈ l₁ ↔ x ∈ l₂) → l₁ = l₂ := by
  intro l₁
  induction l₁ with
  | nil =>
    intro l₂ _ _ hm
    cases l₂ with
    | nil => rfl
    | cons b t₂ => exact absurd ((hm b).mpr (List.mem_cons_self b t₂)) (List.not_mem_nil b)
  | cons a t₁ ih =>
    intro l₂ h₁ h₂ hm
    cases l₂ with
    | nil => exact absurd ((hm a).mp (List.mem_cons_self a t₁)) (List.not_mem_nil a)
    | cons b t₂ =>
      obtain ⟨ha1, ht1⟩ := List.pairwise_cons.mp h₁
      obtain ⟨hb2, ht2⟩ := List.pairwise_cons.mp h₂
      have hab : a = b := by
        rcases List.mem_cons.mp ((hm a).mp (List.mem_cons_self a t₁)) with h | h
        · exact h
        · rcases List.mem_cons.mp ((hm b).mpr (List.mem_cons_self b t₂)) with h' | h'
          · exact h'.symm
          · exact absurd (Nat.lt_trans (hb2 a h) (ha1 b h')) (Nat.lt_irrefl b)
      subst hab
      have htm : ∀ x, x ∈ t₁ ↔ x ∈ t₂ := by
        intro x
        constructor
        · intro hx
          rcases List.mem_cons.mp ((hm x).mp (List.mem_cons.mpr (Or.inr hx))) with h | h
          · exact absurd (h ▸ ha1 x hx) (Nat.lt_irrefl x)
          · exact h
        · intro hx
          rcases List.mem_cons.mp ((hm x).mpr (List.mem_cons.mpr (Or.inr hx))) with h | h
          · exact absurd (h ▸ hb2 x hx) (Nat.lt_irrefl x)
          · exact h
      rw [ih t₂ ht1 ht2 htm]

/-- The size identity behind the multikey test: for strictly sorted key sets,
the old key count plus added minus removed equals the new key count. -/
theorem setDifference_count (oldKeys newKeys : List Nat)
    (hold : oldKeys.Pairwise (· < ·)) (hnew : newKeys.Pairwise (· < ·)) :
    oldKeys.length + (setDifference newKeys oldKeys).length
      - (setDifference oldKeys newKeys).length = newKeys.length ∧
    (setDifference oldKeys newKeys).length ≤ oldKeys.length := by
  rw [setDifference_eq_filter oldKeys newKeys hold hnew,
    setDifference_eq_filter newKeys oldKeys hnew hold]
  have hinter : oldKeys.filter (fun x => decide (x ∈ newKeys)) =
      newKeys.filter fun x => decide (x ∈ oldKeys) := by
    apply sorted_eq_of_mem_iff _ _ (hold.filter _) (hnew.filter _)
    intro x
    simp only [List.mem_filter, decide_eq_true_eq]
    constructor
    · rintro ⟨h1, h2⟩; exact ⟨h2, h1⟩
    · rintro ⟨h1, h2⟩; exact ⟨h2, h1⟩
  have hoc := length_filter_add_length_filter_not oldKeys fun x => decide (x ∈ newKeys)
  have hnc := length_filter_add_length_filter_not newKeys fun x => decide (x ∈ oldKeys)
  have hrw1 : (oldKeys.filter fun x => !(decide (x ∈ newKeys))) =
      oldKeys.filter fun x => decide (x ∉ newKeys) := by
    apply List.filter_congr; intro x _; simp
  have hrw2 : (newKeys.filter fun x => !(decide (x ∈ oldKeys))) =
      newKeys.filter fun x => decide (x ∉ oldKeys) := by
    apply List.filter_congr; intro x _; simp
  rw [hrw1] at hoc
  rw [hrw2] at hnc
  rw [hinter] at hoc
  omega

/-! ### Claim C10 -/

/-- C10 counterexample: two sets ordered by the same (descending) comparison spec
for which `setDifference` reports an element of the left set even though the
right set holds an equal element — the two-pointer scan advances by the default
ascending comparison while iterating in descending order. -/
theorem c10_set_difference_counterexample :
    ([3] : List Nat).Pairwise (· > ·) ∧ ([5, 3] : List Nat).Pairwise (· > ·) ∧
    setDifference [3] [5, 3] = [3] ∧ (3 : Nat) ∈ [5, 3] := by
  refine ⟨?_, ?_, rfl, ?_⟩ <;> decide

/-- C10 (amended): for two sets ordered by the default ascending spec,
`setDifference(l, r, diff)` appends exactly those elements of `l` with no equal
element in `r`, in `l`'s sorted iteration order. -/
theorem c10_set_difference_ascending (l r : List Nat)
    (hl : l.Pairwise (· < ·)) (hr : r.Pairwise (· < ·)) :
    setDifference l r = l.filter fun x => decide (x ∉ r) :=
  setDifference_eq_filter l r hl hr

/-- Witness for C10 (amended) at a concrete pair of ascending sets. -/
theorem c10_set_difference_ascending_witness :
    setDifference [1, 3, 7] [3, 4] = [1, 3, 7].filter fun x => decide (x ∉ [3, 4]) :=
  c10_set_difference_ascending [1, 3, 7] [3, 4] (by decide) (by decide)

/-! ### Claim C8 -/

/-- C8: `update(ticket)` issues the added keys as puts before the removed keys as
deletions, and the multikey test `oldKeys.size() + added.size() - removed.size() > 1`
coincides with the new key-set size exceeding one. -/
theorem c8_update_order_and_multikey (oldKeys newKeys : List Key) (loc : Loc)
    (dupsAllowed : Bool)
    (hold : oldKeys.Pairwise (· < ·)) (hnew : newKeys.Pairwise (· < ·)) :
    updateOps (validateUpdateKeys oldKeys newKeys loc dupsAllowed) =
      ((setDifference newKeys oldKeys).map fun k => IndexOp.put k loc) ++
      ((setDifference oldKeys newKeys).map fun k => IndexOp.del k loc) ∧
    oldKeys.length + (validateUpdateKeys oldKeys newKeys loc dupsAllowed).added.length
      - (validateUpdateKeys oldKeys newKeys loc dupsAllowed).removed.length
      = newKeys.length ∧
    (updateSetsMultikey (validateUpdateKeys oldKeys newKeys loc dupsAllowed) = true ↔
      1 < newKeys.length) := by
  obtain ⟨hcount, hle⟩ := setDifference_count oldKeys newKeys hold hnew
  refine ⟨rfl, hcount, ?_⟩
  simp only [updateSetsMultikey, validateUpdateKeys, decide_eq_true_eq]
  omega

/-- Witness for C8 at concrete key sets. -/
theorem c8_update_order_and_multikey_witness :
    updateOps (validateUpdateKeys [1, 2] [2, 3, 4] 9 false) =
      ((setDifference [2, 3, 4] [1, 2]).map fun k => IndexOp.put k 9) ++
      ((setDifference [1, 2] [2, 3, 4]).map fun k => IndexOp.del k 9) ∧
    (2 : Nat) + (validateUpdateKeys [1, 2] [2, 3, 4] 9 false).added.length
      - (validateUpdateKeys [1, 2] [2, 3, 4] 9 false).removed.length = 3 ∧
    (updateSetsMultikey (validateUpdateKeys [1, 2] [2, 3, 4] 9 false) = true ↔
      1 < ([2, 3, 4] : List Key).length) :=
  c8_update_order_and_multikey [1, 2] [2, 3, 4] 9 false (by decide) (by decide)

/-! ### Claim C2 -/

/-- C2: committing the externally sorted stream (7,L1),(7,L2),(7,L3),(9,L4) on a
unique index with dropDups set.  Because the commit loop never clears `first` nor
assigns `lastKey`, `matchesLast` is always false: nothing is ever recorded in
`dupsToDrop`, and the second pair raises an uncaught `MDB_KEYEXIST` from the
`MDB_NOOVERWRITE` put, instead of skipping the duplicates and leaving the
database as the claim states. -/
theorem c2_bulk_commit_drop_dups_eval :
    commitBulkMDB [(7, 1), (7, 2), (7, 3), (9, 4)] true [] =
      .keyExistError [(7, 1)] [] := by
  decide

/-! ### Claim C3 -/

/-- C3 counterexample: `DB::get` on a missing key raises the store error
`MDB_NOTFOUND` through `check`, rather than reporting an absent optional. -/
theorem c3_get_not_found_raises :
    dbGet [] 0 = .error mdbNotFound := rfl

/-- C3 (amended): `has_key`, `open_if_can` and cursor positioning report the
not-found outcome as `false`/absent and never raise; `DB::get` alone raises the
store error on a missing key. -/
theorem c3_not_found_never_error_except_get (db : UDB) (k : Key)
    (env : List Nat) (name : Nat) :
    (∃ b, dbHasKey db k = .ok b) ∧
    (∃ b, dbOpenIfCan env name = .ok b) ∧
    (∃ r, cursorSeekKeyMaybe db k = .ok r) ∧
    (udbLookup db k = none → dbGet db k = .error mdbNotFound) := by
  refine ⟨?_, ?_, ?_, ?_⟩
  · unfold dbHasKey
    cases udbLookup db k
    · exact ⟨false, rfl⟩
    · exact ⟨true, rfl⟩
  · unfold dbOpenIfCan
    by_cases h : name ∈ env
    · exact ⟨true, if_pos h⟩
    · exact ⟨false, if_neg h⟩
  · unfold cursorSeekKeyMaybe
    cases hv : udbLookup db k
    · exact ⟨none, rfl⟩
    · exact ⟨_, rfl⟩
  · intro h
    unfold dbGet
    rw [h]

/-- Witness for C3 (amended) on the empty database. -/
theorem c3_not_found_never_error_except_get_witness :
    (∃ b, dbHasKey [] 0 = .ok b) ∧ (∃ b, dbOpenIfCan [] 0 = .ok b) ∧
    (∃ r, cursorSeekKeyMaybe [] 0 = .ok r) ∧ dbGet [] 0 = .error mdbNotFound := by
  obtain ⟨h1, h2, h3, h4⟩ := c3_not_found_never_error_except_get [] 0 [] 0
  exact ⟨h1, h2, h3, h4 rfl⟩

/-! ### Claim C5 -/

/-- C5: forward `restorePosition` when the saved pair (5, L) was deleted and the
database holds only the strictly greater key 6.  `seekRange(savedKey, savedLoc)`
misses, `seekRange(savedKey)` lands on key 6 — strictly greater than the saved
key — yet the source's self-comparison branch advances by `nextNoDup` past the
landed key and reports EOF, where the claim requires the cursor to remain on the
landed key and not be at EOF. -/
theorem c5_restore_position_skips_landed_key :
    seekBothRange [(6, 0)] 5 0 = none ∧
    seekRangeIdx [(6, 0)] 5 = some 0 ∧
    ([((6 : Key), (0 : Loc))].get? 0 = some (6, 0)) ∧
    restorePositionForward [(6, 0)] 5 0 = (true, none) := by
  decide

/-! ### Claim C9 -/

/-- C9: `savePosition` at EOF returns `IllegalOperation` and changes nothing;
otherwise it copies the current key and locator into the owned saved slots and
drops the live cursor handle. -/
theorem c9_save_position (s : IndexCursorState) :
    (s.eof = true → savePosition s = .illegalOperation s) ∧
    (∀ k l, s.eof = false → s.current = some (k, l) →
      savePosition s = .ok { s with savedKey := k, savedLoc := l, live := false }) := by
  constructor
  · intro h
    simp [savePosition, h]
  · intro k l he hc
    simp [savePosition, he, hc]

/-- Witness for C9 at an EOF cursor and at a positioned cursor. -/
theorem c9_save_position_witness :
    savePosition ⟨true, none, 0, 0, false⟩ = .illegalOperation ⟨true, none, 0, 0, false⟩ ∧
    savePosition ⟨false, some (5, 7), 0, 0, true⟩ = .ok ⟨false, some (5, 7), 5, 7, false⟩ :=
  ⟨(c9_save_position ⟨true, none, 0, 0, false⟩).1 rfl,
   (c9_save_position ⟨false, some (5, 7), 0, 0, true⟩).2 5 7 rfl rfl⟩

/-! ### Claim C7 -/

/-- C7: every codec with both directions round-trips — decode after encode is the
identity under the type's semantic equality — and the fixed-width decoders accept
only views whose length equals the type's size. -/
theorem c7_codec_round_trip (v32 v64 : Nat) (l : DiskLoc) (s t : List Nat) (o : BSONObj)
    (h32 : v32 < 2 ^ 32) (h64 : v64 < 2 ^ 64)
    (ha : l.a < 2 ^ 32) (hofs : l.ofs < 2 ^ 32) (ho : bsonWF o) :
    u32FromMDB (u32ToMDB v32) = some v32 ∧
    u64FromMDB (u64ToMDB v64) = some v64 ∧
    diskLocFromMDB (diskLocToMDB l) = some l ∧
    stringFromMDB (stringToMDB s) = s ∧
    stringDataFromMDB (stringDataToMDB t) = t ∧
    bsonFromMDB (bsonToMDB o) = some o ∧
    (∀ d r, u32FromMDB d = some r → d.length = 4) ∧
    (∀ d r, u64FromMDB d = some r → d.length = 8) ∧
    (∀ d r, diskLocFromMDB d = some r → d.length = 8) := by
  refine ⟨?_, ?_, ?_, rfl, rfl, ?_, ?_, ?_, ?_⟩
  · simp only [u32ToMDB, u32FromMDB, Option.some.injEq]
    omega
  · simp only [u64ToMDB, u64FromMDB, Option.some.injEq]
    omega
  · cases l with
    | mk a ofs =>
      simp only [diskLocToMDB, u32ToMDB, List.cons_append, List.nil_append,
        diskLocFromMDB, Option.some.injEq, DiskLoc.mk.injEq]
      simp only at ha hofs
      constructor <;> omega
  · cases o with
    | mk bs =>
      show bsonFromMDB bs = some ⟨bs⟩
      unfold bsonFromMDB
      have ho' : bsonObjsize bs = bs.length := ho
      rw [if_pos ho']
  · intro d r h
    unfold u32FromMDB at h
    split at h
    · rfl
    · cases h
  · intro d r h
    unfold u64FromMDB at h
    split at h
    · rfl
    · cases h
  · intro d r h
    unfold diskLocFromMDB at h
    split at h
    · rfl
    · cases h

/-- Witness for C7 at concrete values of every supported type. -/
theorem c7_codec_round_trip_witness :
    u32FromMDB (u32ToMDB 305419896) = some 305419896 ∧
    u64FromMDB (u64ToMDB 81985529216486895) = some 81985529216486895 ∧
    diskLocFromMDB (diskLocToMDB ⟨3, 1193046⟩) = some ⟨3, 1193046⟩ ∧
    stringFromMDB (stringToMDB [104, 105]) = [104, 105] ∧
    stringDataFromMDB (stringDataToMDB [119]) = [119] ∧
    bsonFromMDB (bsonToMDB ⟨[5, 0, 0, 0, 0]⟩) = some ⟨[5, 0, 0, 0, 0]⟩ ∧
    (∀ d r, u32FromMDB d = some r → d.length = 4) ∧
    (∀ d r, u64FromMDB d = some r → d.length = 8) ∧
    (∀ d r, diskLocFromMDB d = some r → d.length = 8) :=
  c7_codec_round_trip 305419896 81985529216486895 ⟨3, 1193046⟩ [104, 105] [119]
    ⟨[5, 0, 0, 0, 0]⟩ (by decide) (by decide) (by decide) (by decide) (by rfl)

/-! ### Record-store helpers -/

theorem cappedEvict_bounds (maxSize maxDocs : Nat) :
    ∀ (db : List (Nat × Nat)) (ds nr : Int) (db' : List (Nat × Nat)) (ds' nr' : Int),
      cappedEvict maxSize maxDocs db ds nr = some (db', ds', nr') →
      asSizeT ds' ≤ (maxSize : Int) ∧ nr' ≤ (maxDocs : Int) := by
  intro db
  induction db with
  | nil =>
    intro ds nr db' ds' nr' h
    unfold cappedEvict at h
    split at h
    · cases h
    · rename_i hcond
      simp only [Option.some.injEq, Prod.mk.injEq] at h
      obtain ⟨-, rfl, rfl⟩ := h
      push_neg at hcond
      exact hcond
  | cons p rest ih =>
    intro ds nr db' ds' nr' h
    unfold cappedEvict at h
    split at h
    · exact ih _ _ _ _ _ h
    · rename_i hcond
      simp only [Option.some.injEq, Prod.mk.injEq] at h
      obtain ⟨-, rfl, rfl⟩ := h
      push_neg at hcond
      exact hcond

theorem cappedEvict_mem (maxSize maxDocs : Nat) :
    ∀ (db : List (Nat × Nat)) (ds nr : Int) (db' : List (Nat × Nat)) (ds' nr' : Int),
      cappedEvict maxSize maxDocs db ds nr = some (db', ds', nr') →
      ∀ p ∈ db', p ∈ db := by
  intro db
  induction db with
  | nil =>
    intro ds nr db' ds' nr' h p hp
    unfold cappedEvict at h
    split at h
    · cases h
    · simp only [Option.some.injEq, Prod.mk.injEq] at h
      obtain ⟨rfl, -, -⟩ := h
      exact hp
  | cons q rest ih =>
    intro ds nr db' ds' nr' h p hp
    unfold cappedEvict at h
    split at h
    · exact List.mem_cons_of_mem q (ih _ _ _ _ _ h p hp)
    · simp only [Option.some.injEq, Prod.mk.injEq] at h
      obtain ⟨rfl, -, -⟩ := h
      exact hp

theorem cappedPostInsert_bounds (d : CappedDetails) (db : List (Nat × Nat))
    (db' : List (Nat × Nat)) (d' : CappedDetails)
    (hcap : d.isCapped = true)
    (h : cappedPostInsert d db = some (db', d')) :
    asSizeT d'.dataSize ≤ (d'.maxSize : Int) ∧ d'.numRecords ≤ (d'.maxDocs : Int) := by
  unfold cappedPostInsert at h
  rw [hcap] at h
  simp only [Bool.not_true, Bool.false_eq_true, if_false] at h
  split at h
  · rename_i hcond
    simp only [Option.some.injEq, Prod.mk.injEq] at h
    obtain ⟨-, rfl⟩ := h
    exact hcond
  · split at h
    · rename_i db'' ds'' nr'' heq
      simp only [Option.some.injEq, Prod.mk.injEq] at h
      obtain ⟨rfl, rfl⟩ := h
      exact cappedEvict_bounds d.maxSize d.maxDocs db d.dataSize d.numRecords db'' ds'' nr'' heq
    · cases h

theorem cappedPostInsert_mem (d : CappedDetails) (db : List (Nat × Nat))
    (db' : List (Nat × Nat)) (d' : CappedDetails)
    (h : cappedPostInsert d db = some (db', d')) :
    ∀ p ∈ db', p ∈ db := by
  unfold cappedPostInsert at h
  split at h
  · simp only [Option.some.injEq, Prod.mk.injEq] at h
    obtain ⟨rfl, -⟩ := h
    exact fun p hp => hp
  · split at h
    · simp only [Option.some.injEq, Prod.mk.injEq] at h
      obtain ⟨rfl, -⟩ := h
      exact fun p hp => hp
    · split at h
      · rename_i db'' ds'' nr'' heq
        simp only [Option.some.injEq, Prod.mk.injEq] at h
        obtain ⟨rfl, -⟩ := h
        exact cappedEvict_mem d.maxSize d.maxDocs db d.dataSize d.numRecords db'' ds'' nr'' heq
      · cases h

theorem dbPutAppend_eq (db : List (Nat × Nat)) (id sz : Nat)
    (db' : List (Nat × Nat)) (h : dbPutAppend db id sz = some db') :
    db' = db ++ [(id, sz)] := by
  unfold dbPutAppend at h
  split at h
  · injection h with h'
    exact h'.symm
  · split at h
    · injection h with h'
      exact h'.symm
    · cases h

/-! ### Claim C4 -/

/-- C4: on a capped collection, whenever `insertRecord` returns success the stats
satisfy both caps: the eviction loop of `cappedPostInsert` keeps deleting the
oldest record and decrementing the stats until both bounds hold (success of the
insert presupposes that eviction never had to consume the record just written). -/
theorem c4_capped_insert_bounds (s : RecordStoreState) (size : Nat)
    (s' : RecordStoreState) (id : Nat)
    (hcap : s.details.isCapped = true)
    (h : insertRecord s size = some (s', id)) :
    s'.details.dataSize ≤ (s'.details.maxSize : Int) ∧
    s'.details.numRecords ≤ (s'.details.maxDocs : Int) := by
  unfold insertRecord at h
  dsimp only at h
  split at h
  · split at h
    · split at h
      · rename_i db'' d'' heq
        simp only [Option.some.injEq, Prod.mk.injEq] at h
        obtain ⟨rfl, -⟩ := h
        have hb : asSizeT d''.dataSize ≤ (d''.maxSize : Int) ∧
            d''.numRecords ≤ (d''.maxDocs : Int) := by
          apply cappedPostInsert_bounds _ _ _ _ _ heq
          exact hcap
        refine ⟨?_, hb.2⟩
        have h1 := hb.1
        unfold asSizeT at h1
        split at h1
        · rename_i hneg
          exact le_trans (le_of_lt hneg) (Int.natCast_nonneg _)
        · exact h1
      · cases h
    · cases h
  · cases h

/-- Witness for C4: a capped store at maxSize 100 holding three 30-byte records;
a fourth insert evicts the oldest record and both caps hold afterwards. -/
theorem c4_capped_insert_bounds_witness :
    ((90 : Int) ≤ ((100 : Nat) : Int)) ∧ ((3 : Int) ≤ ((1000 : Nat) : Int)) :=
  c4_capped_insert_bounds
    ⟨[(0, 30), (1, 30), (2, 30)], 3, ⟨true, 100, 1000, 90, 3⟩⟩ 30
    ⟨[(1, 30), (2, 30), (3, 30)], 4, ⟨true, 100, 1000, 90, 3⟩⟩ 3 rfl (by decide)

theorem getLast?_cons_isSome (a : Nat × Nat) :
    ∀ (t : List (Nat × Nat)), ∃ q, (a :: t).getLast? = some q := by
  intro t
  induction t generalizing a with
  | nil => exact ⟨a, rfl⟩
  | cons b t' ih =>
    obtain ⟨q, hq⟩ := ih b
    exact ⟨q, by rw [List.getLast?_cons_cons]; exact hq⟩

theorem mem_of_getLast?_eq :
    ∀ (l : List (Nat × Nat)) (q : Nat × Nat), l.getLast? = some q → q ∈ l := by
  intro l
  induction l with
  | nil => intro q h; cases h
  | cons a t ih =>
    intro q h
    cases t with
    | nil =>
      cases h
      exact List.mem_cons_self _ _
    | cons b t' =>
      rw [List.getLast?_cons_cons] at h
      exact List.mem_cons_of_mem a (ih q h)

theorem fst_le_getLast_of_sorted :
    ∀ (l : List (Nat × Nat)), (l.map Prod.fst).Pairwise (· < ·) →
      ∀ p ∈ l, ∀ q, l.getLast? = some q → p.1 ≤ q.1 := by
  intro l
  induction l with
  | nil => intro _ p hp; cases hp
  | cons a t ih =>
    intro hs p hp q hq
    rw [List.map_cons] at hs
    obtain ⟨hhead, htail⟩ := List.pairwise_cons.mp hs
    cases t with
    | nil =>
      rcases List.mem_cons.mp hp with rfl | hmt
      · cases hq
        exact Nat.le_refl _
      · cases hmt
    | cons b t' =>
      rw [List.getLast?_cons_cons] at hq
      have hqmem : q ∈ b :: t' := mem_of_getLast?_eq _ q hq
      rcases List.mem_cons.mp hp with rfl | hmt
      · exact Nat.le_of_lt (hhead q.1 (List.mem_map_of_mem Prod.fst hqmem))
      · exact ih htail p hmt q hq

/-! ### Claim C6 -/

/-- C6: opening a record store over a normal namespace sets the next id to the
largest stored 32-bit key plus one (0 when empty), and a successful
`insertRecord` takes `id = _nextId++`, an id strictly greater than every id
already stored, preserving freshness (hypotheses exclude 32-bit wrap-around of
the id counter). -/
theorem c6_next_id_fresh (db : List (Nat × Nat)) (s : RecordStoreState) (size : Nat)
    (hdb : (db.map Prod.fst).Pairwise (· < ·))
    (hbound : ∀ p ∈ db, p.1 + 1 < 2 ^ 32)
    (hinv : ∀ p ∈ s.db, p.1 < s.nextId)
    (hwrap : s.nextId + 1 < 2 ^ 32) :
    (∀ p ∈ db, p.1 < openNextId db) ∧
    (db = [] → openNextId db = 0) ∧
    (∀ s' id, insertRecord s size = some (s', id) →
      id = s.nextId ∧ (∀ p ∈ s.db, p.1 < id) ∧ s'.nextId = id + 1 ∧
      ∀ p ∈ s'.db, p.1 < s'.nextId) := by
  refine ⟨?_, ?_, ?_⟩
  · intro p hp
    cases db with
    | nil => cases hp
    | cons a t =>
      obtain ⟨q, hq⟩ := getLast?_cons_isSome a t
      have hple : p.1 ≤ q.1 := fst_le_getLast_of_sorted _ hdb p hp q hq
      have hqb : q.1 + 1 < 2 ^ 32 := hbound q (mem_of_getLast?_eq _ q hq)
      obtain ⟨qk, qv⟩ := q
      unfold openNextId
      rw [hq]
      show p.1 < (qk + 1) % 2 ^ 32
      rw [Nat.mod_eq_of_lt hqb]
      omega
  · intro h
    subst h
    rfl
  · intro s' id h
    unfold insertRecord at h
    dsimp only at h
    split at h
    · split at h
      · rename_i db₁ heq
        split at h
        · rename_i db'' d'' heq2
          simp only [Option.some.injEq, Prod.mk.injEq] at h
          obtain ⟨rfl, rfl⟩ := h
          refine ⟨rfl, hinv, ?_, ?_⟩
          · exact Nat.mod_eq_of_lt hwrap
          · intro p hp
            have hp1 : p ∈ db₁ := cappedPostInsert_mem _ _ _ _ heq2 p hp
            rw [dbPutAppend_eq s.db s.nextId size db₁ heq] at hp1
            rcases List.mem_append.mp hp1 with hm | hm
            · have := hinv p hm
              simp only [Nat.mod_eq_of_lt hwrap]
              omega
            · rcases List.mem_cons.mp hm with rfl | hnil
              · simp only [Nat.mod_eq_of_lt hwrap]
                omega
              · cases hnil
        · cases h
      · cases h
    · cases h

/-- Witness for C6: a store opened over keys 0 and 3 gets next id 4; the next
insert uses id 4 and bumps the counter to 5. -/
theorem c6_next_id_fresh_witness :
    (∀ p ∈ ([((0 : Nat), (5 : Nat)), (3, 5)] : List (Nat × Nat)),
      p.1 < openNextId [(0, 5), (3, 5)]) ∧
    (⟨[(0, 5), (3, 5), (4, 7)], 5, ⟨false, 0, 0, 17, 3⟩⟩ : RecordStoreState).nextId = 4 + 1 := by
  have h := c6_next_id_fresh [(0, 5), (3, 5)]
    ⟨[(0, 5), (3, 5)], 4, ⟨false, 0, 0, 10, 2⟩⟩ 7
    (by decide) (by decide) (by decide) (by decide)
  refine ⟨h.1, ?_⟩
  exact (h.2.2 ⟨[(0, 5), (3, 5), (4, 7)], 5, ⟨false, 0, 0, 17, 3⟩⟩ 4 (by decide)).2.2.1

/-! ### Unique-database helpers for C1 -/

theorem mem_udbInsert {db : UDB} {p q : Key × Loc} :
    p ∈ udbInsert db q ↔ p = q ∨ p ∈ db := by
  induction db with
  | nil => simp [udbInsert]
  | cons r rest ih =>
    unfold udbInsert
    split
    · simp [List.mem_cons]
    · simp only [List.mem_cons, ih]
      tauto

theorem mem_udbKeys_insert {db : UDB} {q : Key × Loc} {k : Key} :
    k ∈ udbKeys (udbInsert db q) ↔ k = q.1 ∨ k ∈ udbKeys db := by
  simp only [udbKeys, List.mem_map]
  constructor
  · rintro ⟨p, hp, rfl⟩
    rcases mem_udbInsert.mp hp with rfl | hmem
    · exact Or.inl rfl
    · exact Or.inr ⟨p, hmem, rfl⟩
  · rintro (rfl | ⟨p, hp, rfl⟩)
    · exact ⟨q, mem_udbInsert.mpr (Or.inl rfl), rfl⟩
    · exact ⟨p, mem_udbInsert.mpr (Or.inr hp), rfl⟩

theorem perm_udbInsert (db : UDB) (q : Key × Loc) : List.Perm (udbInsert db q) (q :: db) := by
  induction db with
  | nil => exact List.Perm.refl _
  | cons r rest ih =>
    unfold udbInsert
    split
    · exact List.Perm.refl _
    · exact (ih.cons r).trans (List.Perm.swap q r rest)

theorem udbSorted_insert {db : UDB} {q : Key × Loc}
    (h : udbSorted db) (hk : q.1 ∉ udbKeys db) : udbSorted (udbInsert db q) := by
  induction db with
  | nil => simp [udbInsert, udbSorted]
  | cons r rest ih =>
    obtain ⟨hr, hrest⟩ := List.pairwise_cons.mp h
    have hkr : q.1 ≠ r.1 := by
      intro hc
      exact hk (by simp [udbKeys, hc])
    have hkrest : q.1 ∉ udbKeys rest := by
      intro hc
      exact hk (by simp [udbKeys] at hc ⊢; tauto)
    unfold udbInsert
    by_cases hlt : q.1 < r.1
    · rw [if_pos hlt]
      refine List.pairwise_cons.mpr ⟨?_, h⟩
      intro x hx
      rcases List.mem_cons.mp hx with rfl | hmem
      · exact hlt
      · exact Nat.lt_trans hlt (hr x hmem)
    · rw [if_neg hlt]
      have hgt : r.1 < q.1 :=
        Nat.lt_of_le_of_ne (Nat.le_of_not_lt hlt) fun hc => hkr hc.symm
      refine List.pairwise_cons.mpr ⟨?_, ih hrest hkrest⟩
      intro x hx
      rcases mem_udbInsert.mp hx with rfl | hmem
      · exact hgt
      · exact hr x hmem

theorem erasePair_sublist : ∀ (db : UDB) (p : Key × Loc), (erasePair db p).Sublist db := by
  intro db p
  induction db with
  | nil => exact List.Sublist.refl _
  | cons q t ih =>
    unfold erasePair
    split
    · exact List.sublist_cons_self q t
    · exact ih.cons₂ q

theorem udbSorted_erasePair {db : UDB} {p : Key × Loc} (h : udbSorted db) :
    udbSorted (erasePair db p) :=
  h.sublist (erasePair_sublist db p)

theorem mem_of_mem_erasePair {db : UDB} {p x : Key × Loc}
    (hx : x ∈ erasePair db p) : x ∈ db := by
  exact (erasePair_sublist db p).mem hx

theorem mem_erasePair_of_ne {db : UDB} {p x : Key × Loc} (hne : x ≠ p) :
    x ∈ erasePair db p ↔ x ∈ db := by
  constructor
  · exact mem_of_mem_erasePair
  · intro hx
    induction db with
    | nil => cases hx
    | cons q t ih =>
      unfold erasePair
      split
      · rename_i hq
        subst hq
        rcases List.mem_cons.mp hx with rfl | hm
        · exact absurd rfl hne
        · exact hm
      · rcases List.mem_cons.mp hx with rfl | hm
        · exact List.mem_cons_self _ _
        · exact List.mem_cons_of_mem q (ih hm)

theorem perm_cons_erasePair {db : UDB} {p : Key × Loc} (hp : p ∈ db) :
    List.Perm db (p :: erasePair db p) := by
  induction db with
  | nil => cases hp
  | cons q t ih =>
    unfold erasePair
    split
    · rename_i hq
      subst hq
      exact List.Perm.refl _
    · rename_i hq
      rcases List.mem_cons.mp hp with rfl | hm
      · exact absurd rfl hq
      · exact ((ih hm).cons q).trans (List.Perm.swap p q _)

theorem udbKeys_nodup {db : UDB} (h : udbSorted db) : (udbKeys db).Nodup := by
  have hp : (udbKeys db).Pairwise (· < ·) := by
    unfold udbKeys
    exact (List.pairwise_map).mpr h
  exact hp.imp Nat.ne_of_lt

theorem udbLookup_mem {db : UDB} {k : Key} {l : Loc}
    (h : udbLookup db k = some l) : (k, l) ∈ db := by
  induction db with
  | nil => cases h
  | cons p rest ih =>
    unfold udbLookup at h
    split at h
    · rename_i hpk
      injection h with h'
      subst h'
      rw [← hpk]
      exact List.mem_cons_self _ _
    · exact List.mem_cons_of_mem p (ih h)

theorem udbLookup_key_mem {db : UDB} {k : Key} {l : Loc}
    (h : udbLookup db k = some l) : k ∈ udbKeys db := by
  exact List.mem_map_of_mem Prod.fst (udbLookup_mem h)

theorem udbLookup_of_mem {db : UDB} {k : Key} {l : Loc}
    (hnd : (udbKeys db).Nodup) (hm : (k, l) ∈ db) : udbLookup db k = some l := by
  induction db with
  | nil => cases hm
  | cons p rest ih =>
    have hnd' : (udbKeys rest).Nodup := (List.nodup_cons.mp hnd).2
    have hph : p.1 ∉ udbKeys rest := (List.nodup_cons.mp hnd).1
    unfold udbLookup
    rcases List.mem_cons.mp hm with rfl | hmem
    · rw [if_pos rfl]
    · split
      · rename_i hpk
        subst hpk
        exact absurd (List.mem_map_of_mem Prod.fst hmem) hph
      · exact ih hnd' hmem

theorem udbPut_keyexist {db : UDB} {k : Key} (l : Loc) (hk : k ∈ udbKeys db) :
    udbPut db k l true = .error mdbKeyExist := by
  unfold udbPut
  rw [if_pos hk]
  rfl

theorem udbPut_fresh {db : UDB} {k : Key} (l : Loc) (no : Bool) (hk : k ∉ udbKeys db) :
    udbPut db k l no = .ok (udbInsert db (k, l)) := by
  unfold udbPut
  rw [if_neg hk]

theorem perm_append_cancel_left :
    ∀ (l l₁ l₂ : List (Key × Loc)), List.Perm (l ++ l₁) (l ++ l₂) → List.Perm l₁ l₂ := by
  intro l
  induction l with
  | nil => intro _ _ h; exact h
  | cons a t ih => intro l₁ l₂ h; exact ih _ _ h.cons_inv

theorem foldIns_perm (loc : Loc) :
    ∀ (pre : List Key) (db : UDB),
      List.Perm (foldIns db pre loc) ((pre.map fun k => (k, loc)) ++ db) := by
  intro pre
  induction pre with
  | nil => intro db; exact List.Perm.refl _
  | cons k pre' ih =>
    intro db
    show List.Perm (foldIns (udbInsert db (k, loc)) pre' loc) _
    have h1 := ih (udbInsert db (k, loc))
    have h2 : List.Perm ((pre'.map fun x => (x, loc)) ++ udbInsert db (k, loc))
        ((pre'.map fun x => (x, loc)) ++ ((k, loc) :: db)) :=
      List.Perm.append_left _ (perm_udbInsert db (k, loc))
    have h3 : List.Perm ((pre'.map fun x => (x, loc)) ++ ((k, loc) :: db))
        ((k, loc) :: ((pre'.map fun x => (x, loc)) ++ db)) := List.perm_middle
    exact (h1.trans h2).trans h3

theorem foldIns_sorted (loc : Loc) :
    ∀ (pre : List Key) (db : UDB), udbSorted db → pre.Nodup →
      (∀ k ∈ pre, k ∉ udbKeys db) → udbSorted (foldIns db pre loc) := by
  intro pre
  induction pre with
  | nil => intro db h _ _; exact h
  | cons k pre' ih =>
    intro db h hnd hfresh
    show udbSorted (foldIns (udbInsert db (k, loc)) pre' loc)
    apply ih
    · exact udbSorted_insert h (hfresh k (List.mem_cons_self _ _))
    · exact (List.nodup_cons.mp hnd).2
    · intro k' hk' hc
      rcases mem_udbKeys_insert.mp hc with rfl | hmem
      · exact (List.nodup_cons.mp hnd).1 hk'
      · exact hfresh k' (List.mem_cons_of_mem _ hk') hmem

theorem insertUnwind_spec (loc : Loc) (kStar : Key) (post : List Key) :
    ∀ (pre : List Key) (db : UDB), pre.Nodup → kStar ∉ pre →
      (∀ k ∈ pre, (k, loc) ∈ db) → (kStar, loc) ∉ db → udbSorted db →
      ∃ db'', insertUnwind loc kStar (pre ++ kStar :: post) db = some db'' ∧
        List.Perm ((pre.map fun k => (k, loc)) ++ db'') db ∧ udbSorted db'' := by
  intro pre
  induction pre with
  | nil =>
    intro db _ _ _ hstar hs
    refine ⟨db, ?_, List.Perm.refl _, hs⟩
    show insertUnwind loc kStar (kStar :: post) db = some db
    unfold insertUnwind
    rw [if_neg hstar, if_pos rfl]
  | cons k pre' ih =>
    intro db hnd hks hmem hstar hs
    have hkmem : (k, loc) ∈ db := hmem k (List.mem_cons_self _ _)
    have hne : ∀ k' ∈ pre', (k', loc) ∈ erasePair db (k, loc) := by
      intro k' hk'
      have hkk' : k' ≠ k := fun hc => (List.nodup_cons.mp hnd).1 (hc ▸ hk')
      exact (mem_erasePair_of_ne (by simp [hkk'])).mpr
        (hmem k' (List.mem_cons_of_mem _ hk'))
    have hstar' : (kStar, loc) ∉ erasePair db (k, loc) :=
      fun hc => hstar (mem_of_mem_erasePair hc)
    obtain ⟨db'', h1, h2, h3⟩ := ih (erasePair db (k, loc)) (List.nodup_cons.mp hnd).2
      (fun hc => hks (List.mem_cons_of_mem _ hc)) hne hstar' (udbSorted_erasePair hs)
    refine ⟨db'', ?_, ?_, h3⟩
    · show insertUnwind loc kStar (k :: (pre' ++ kStar :: post)) db = some db''
      unfold insertUnwind
      rw [if_pos hkmem]
      exact h1
    · have hpc : List.Perm ((k, loc) :: ((pre'.map fun x => (x, loc)) ++ db''))
          ((k, loc) :: erasePair db (k, loc)) := h2.cons _
      exact hpc.trans (perm_cons_erasePair hkmem).symm

theorem insertLoop_collision (allKeys : List Key) (loc : Loc) (kStar : Key)
    (post : List Key) :
    ∀ (pre : List Key) (db : UDB) (n : Nat), pre.Nodup →
      (∀ k ∈ pre, k ∉ udbKeys db) → kStar ∈ udbKeys db →
      insertLoop allKeys loc true false (pre ++ kStar :: post) db n =
        (match insertUnwind loc kStar allKeys (foldIns db pre loc) with
         | some db' => InsertResult.duplicateKey db' 0
         | none => InsertResult.invariantFailure) := by
  intro pre
  induction pre with
  | nil =>
    intro db n _ _ hk
    show insertLoop allKeys loc true false (kStar :: post) db n = _
    unfold insertLoop
    rw [show (!false) = true from rfl, udbPut_keyexist loc hk]
    rfl
  | cons k pre' ih =>
    intro db n hnd hfresh hk
    have hkf : k ∉ udbKeys db := hfresh k (List.mem_cons_self _ _)
    show insertLoop allKeys loc true false (k :: (pre' ++ kStar :: post)) db n = _
    unfold insertLoop
    rw [show (!false) = true from rfl, udbPut_fresh loc true hkf]
    exact ih (udbInsert db (k, loc)) (n + 1) (List.nodup_cons.mp hnd).2
      (by
        intro k' hk' hc
        rcases mem_udbKeys_insert.mp hc with rfl | hmem
        · exact (List.nodup_cons.mp hnd).1 hk'
        · exact hfresh k' (List.mem_cons_of_mem _ hk') hmem)
      (mem_udbKeys_insert.mpr (Or.inr hk))

/-! ### Claim C1 -/

/-- C1: on a ready unique index with dupsAllowed = false, an insert that collides
with a pre-existing (key, otherLoc) entry is atomic: every (k, loc) pair put for
this document before the collision is deleted again, the database is exactly as
before the insert, numInserted is 0, `DuplicateKey` is returned, and
`findSingle` on the colliding key still yields the original locator. -/
theorem c1_unique_insert_duplicate_atomic (pre post : List Key) (kStar : Key)
    (loc otherLoc : Loc) (db : UDB)
    (hsorted : udbSorted db)
    (hnodup : (pre ++ kStar :: post).Nodup)
    (hpre : ∀ k ∈ pre, k ∉ udbKeys db)
    (hlook : udbLookup db kStar = some otherLoc)
    (hne : otherLoc ≠ loc) :
    indexInsert (pre ++ kStar :: post) loc true false db =
      .duplicateKey db 0 ∧
    findSingle db kStar = some otherLoc := by
  have hknd := udbKeys_nodup hsorted
  have hkmem : kStar ∈ udbKeys db := udbLookup_key_mem hlook
  have hstar : (kStar, loc) ∉ db := by
    intro hm
    have hl2 := udbLookup_of_mem hknd hm
    rw [hlook] at hl2
    injection hl2 with h'
    exact hne h'
  obtain ⟨hndpre, -, hdisj⟩ := List.nodup_append.mp hnodup
  have hksnotpre : kStar ∉ pre := fun hc => hdisj hc (List.mem_cons_self _ _)
  refine ⟨?_, hlook⟩
  unfold indexInsert
  rw [insertLoop_collision (pre ++ kStar :: post) loc kStar post pre db 0
    hndpre hpre hkmem]
  have hfperm := foldIns_perm loc pre db
  have hmemf : ∀ k ∈ pre, (k, loc) ∈ foldIns db pre loc := by
    intro k hk
    exact hfperm.mem_iff.mpr
      (List.mem_append_left _ (List.mem_map_of_mem (fun x => (x, loc)) hk))
  have hstarf : (kStar, loc) ∉ foldIns db pre loc := by
    intro hm
    rcases List.mem_append.mp (hfperm.mem_iff.mp hm) with hm' | hm'
    · obtain ⟨k, hk, hkeq⟩ := List.mem_map.mp hm'
      have : k = kStar := congrArg Prod.fst hkeq
      exact hksnotpre (this ▸ hk)
    · exact hstar hm'
  have hsortedf : udbSorted (foldIns db pre loc) :=
    foldIns_sorted loc pre db hsorted hndpre hpre
  obtain ⟨db'', h1, h2, h3⟩ := insertUnwind_spec loc kStar post pre
    (foldIns db pre loc) hndpre hksnotpre hmemf hstarf hsortedf
  rw [h1]
  have hcanc : List.Perm db'' db :=
    perm_append_cancel_left (pre.map fun k => (k, loc)) db'' db (h2.trans hfperm)
  have hdbeq : db'' = db := List.eq_of_perm_of_sorted hcanc h3 hsorted
  rw [hdbeq]

/-- Witness for C1: the S3 scenario — key 42 stored at locator 256; inserting a
document with key 42 at locator 512 returns DuplicateKey with the database
untouched and `findSingle 42` still 256. -/
theorem c1_unique_insert_duplicate_atomic_witness :
    indexInsert [42] 512 true false [(42, 256)] = .duplicateKey [(42, 256)] 0 ∧
    findSingle [(42, 256)] 42 = some 256 :=
  c1_unique_insert_duplicate_atomic [] [] 42 512 256 [(42, 256)]
    (by decide) (by decide) (by decide) (by decide) (by decide)
